import Mathlib

/-!
# Verification of a Boggle word-search solver

A shallow embedding of `boggle_solver.py`.  Python strings are modelled as
lists of characters (`Str`), Python sets as `Finset`, and the mutable
solver state (the growing `solution_words` list and the per-branch
`visited` set) as an explicit `BoggleState` record threaded through the
recursion.  The depth-first search is embedded fuel-indexed
(`dfsAux`), with the fuel chosen large enough at the call site
(`solveAux`); a stability theorem shows the result does not depend on the
fuel once it exceeds the number of unvisited grid cells.

`dfsAux` takes a boolean `pr`; at `pr = true` it is the source's `_dfs`
(with the prefix-prune early return), at `pr = false` it is the same
search with the prune check removed (brute-force enumeration), used to
state the pruning-equivalence property.
-/

/-- A Python string, modelled as its list of characters. -/
abbrev Str := List Char

/-- A grid coordinate `(row, col)`. Python indices are integers. -/
abbrev Pos := Int × Int

/-- Python's `str.upper`, character by character. -/
def pyUpper (s : Str) : Str := s.map Char.toUpper

/-- A Python value appearing in the raw inputs: either a string or a
value of some non-string type (only its non-stringness matters to the
validators). -/
inductive PyVal where
  | str (s : Str)
  | other
deriving DecidableEq

/-- `isinstance(v, str)`. -/
def PyVal.isStr : PyVal → Bool
  | .str _ => true
  | .other => false

/-- The string carried by a `PyVal` (arbitrary on non-strings, which the
validated code never reads). -/
def PyVal.strOf : PyVal → Str
  | .str s => s
  | .other => []

/-- `Boggle._validateGrid`: the grid is a non-empty list, every row has
the same length as the first row, and every cell is a string. -/
def validateGrid (grid : List (List PyVal)) : Bool :=
  !grid.isEmpty &&
    grid.all fun row =>
      row.length == (grid.headD []).length && row.all PyVal.isStr

/-- `Boggle._validateDictionary`: a non-empty list of strings. -/
def validateDictionary (dictionary : List PyVal) : Bool :=
  !dictionary.isEmpty && dictionary.all PyVal.isStr

/-- `Boggle._expandTile`: uppercase the tile; the special tiles QU, ST
and IE are returned in their two-letter uppercase form. -/
def expandTile (tile : Str) : Str :=
  let tile_upper := pyUpper tile
  if tile_upper = ['Q', 'U'] then ['Q', 'U']
  else if tile_upper = ['S', 'T'] then ['S', 'T']
  else if tile_upper = ['I', 'E'] then ['I', 'E']
  else tile_upper

/-- `self.grid[row][col]` (only ever evaluated in bounds). -/
def cellAt (g : List (List Str)) (r c : Int) : Str :=
  (g.getD r.toNat []).getD c.toNat []

/-- `Boggle._getNeighbors`: the in-bounds cells among the eight
neighbours of `(row, col)`, in the source's enumeration order. -/
def getNeighbors (row col rows cols : Int) : List Pos :=
  ([-1, 0, 1] : List Int).flatMap fun dr =>
    ([-1, 0, 1] : List Int).filterMap fun dc =>
      if dr = 0 ∧ dc = 0 then none
      else if 0 ≤ row + dr ∧ row + dr < rows ∧ 0 ≤ col + dc ∧ col + dc < cols then
        some (row + dr, col + dc)
      else none

/-- `set(word.upper() for word in dictionary)`. -/
def upperDict (d : List Str) : Finset Str := (d.map pyUpper).toFinset

/-- The prefix set built by `setDictionary`: for each stored word `w`,
all slices `w[:i]` for `1 ≤ i ≤ len(w)`. -/
def prefixSet (D : Finset Str) : Finset Str :=
  D.biUnion fun w => ((List.range w.length).map fun i => w.take (i + 1)).toFinset

/-- The solver's mutable state: the accumulated `solution_words` list and
the `visited` set of the active branch. -/
structure BoggleState where
  solution_words : List Str
  visited : Finset Pos
deriving DecidableEq

/-- `Boggle._dfs`, fuel-indexed.  At `pr = true` this is the source
function; at `pr = false` the prefix-prune early return is removed. -/
def dfsAux (pr : Bool) (g : List (List Str)) (dict prefixes : Finset Str)
    (rows cols : Int) : Nat → Int → Int → Str → BoggleState → BoggleState
  | 0, _, _, _, st => st
  | fuel + 1, row, col, current_word, st =>
    let new_word := current_word ++ expandTile (cellAt g row col)
    if pr ∧ new_word ∉ prefixes then st
    else
      let st1 :=
        if 3 ≤ new_word.length ∧ new_word ∈ dict then
          if new_word ∈ st.solution_words then st
          else { st with solution_words := st.solution_words ++ [new_word] }
        else st
      (getNeighbors row col rows cols).foldl
        (fun s p =>
          if p ∈ s.visited then s
          else
            let s2 := dfsAux pr g dict prefixes rows cols fuel p.1 p.2 new_word
              { s with visited := insert p s.visited }
            { s2 with visited := s2.visited.erase p })
        st1

/-- The body of the neighbour loop of `_dfs` (add to `visited`, recurse,
remove again), named so the loop can be reasoned about. -/
def dfsStep (pr : Bool) (g : List (List Str)) (dict prefixes : Finset Str)
    (rows cols : Int) (fuel : Nat) (new_word : Str) (s : BoggleState) (p : Pos) : BoggleState :=
  if p ∈ s.visited then s
  else
    let s2 := dfsAux pr g dict prefixes rows cols fuel p.1 p.2 new_word
      { s with visited := insert p s.visited }
    { s2 with visited := s2.visited.erase p }

/-- The starting cells tried by `_solve`, in row-major order. -/
def startCells (rows cols : Nat) : List Pos :=
  (List.range rows).flatMap fun (r : Nat) =>
    (List.range cols).map fun (c : Nat) => ((r : Int), (c : Int))

/-- `Boggle._solve` over an already-validated grid and dictionary:
reset `solution_words`, then run the search from every cell with a fresh
`visited` set containing only the start cell.  The fuel `rows * cols`
bounds the recursion depth, which never exceeds the number of cells. -/
def solveAux (pr : Bool) (g : List (List Str)) (d : List Str) : List Str :=
  let rows := g.length
  let cols := (g.headD []).length
  let dict := upperDict d
  let prefixes := prefixSet dict
  (startCells rows cols).foldl
    (fun words rc =>
      (dfsAux pr g dict prefixes (rows : Int) (cols : Int) (rows * cols) rc.1 rc.2 []
        { solution_words := words, visited := {rc} }).solution_words)
    []

/-- The validated grid as plain strings (`self.grid` after `setGrid`). -/
def gridStrs (grid : List (List PyVal)) : List (List Str) :=
  grid.map fun row => row.map PyVal.strOf

/-- The raw dictionary as plain strings. -/
def dictStrs (dictionary : List PyVal) : List Str := dictionary.map PyVal.strOf

/-- Constructing `Boggle(grid, dictionary)` and reading `getSolution()`:
if either validator rejects, no search runs and the result is `[]`. -/
def getSolutionAux (pr : Bool) (grid : List (List PyVal)) (dictionary : List PyVal) : List Str :=
  if validateGrid grid && validateDictionary dictionary then
    solveAux pr (gridStrs grid) (dictStrs dictionary)
  else []

/-- `Boggle(grid, dictionary).getSolution()` — the source behaviour. -/
def getSolution (grid : List (List PyVal)) (dictionary : List PyVal) : List Str :=
  getSolutionAux true grid dictionary

/-- The same construction with the prefix-prune check removed. -/
def getSolutionNoPrune (grid : List (List PyVal)) (dictionary : List PyVal) : List Str :=
  getSolutionAux false grid dictionary

/-- Coordinate `q` lies on an `rows × cols` grid. -/
def inBounds (rows cols : Int) (q : Pos) : Prop :=
  0 ≤ q.1 ∧ q.1 < rows ∧ 0 ≤ q.2 ∧ q.2 < cols

instance (rows cols : Int) (q : Pos) : Decidable (inBounds rows cols q) := by
  unfold inBounds; infer_instance

/-- One move of a path: `b` is among the grid neighbours of `a`. -/
def adjStep (rows cols : Int) (a b : Pos) : Prop :=
  b ∈ getNeighbors a.1 a.2 rows cols

/-- A legal Boggle path: pairwise-distinct coordinates, consecutive ones
8-directionally adjacent, all on the grid. -/
def isValidPath (rows cols : Int) (p : List Pos) : Prop :=
  p.Nodup ∧ p.Chain' (adjStep rows cols) ∧ ∀ q ∈ p, inBounds rows cols q

/-- The word traced by a path: the concatenation of the expanded tiles
along it. -/
def pathWord (g : List (List Str)) : List Pos → Str
  | [] => []
  | q :: rest => expandTile (cellAt g q.1 q.2) ++ pathWord g rest

/-- All coordinates of an `rows × cols` grid, as a finite set. -/
def gridCells (rows cols : Int) : Finset Pos :=
  Finset.Icc 0 (rows - 1) ×ˢ Finset.Icc 0 (cols - 1)

/-- Drop the leading cells of a path whose tiles expand to the empty
string (used to relate pruned and unpruned search). -/
def trimPath (g : List (List Str)) : List Pos → List Pos
  | [] => []
  | q :: rest =>
    if expandTile (cellAt g q.1 q.2) = [] then trimPath g rest else q :: rest

/-- The invariant carried by the soundness proof of the search: word `w`
is traced by a legal path that starts at `(r, c)`, avoids the visited
set `V` after its head, and spells `cur ++ w`'s remainder. -/
def soundWitness (g : List (List Str)) (dict : Finset Str) (rows cols r c : Int)
    (cur : Str) (V : Finset Pos) (w : Str) : Prop :=
  ∃ p : List Pos, p.head? = some (r, c) ∧ p.Chain' (adjStep rows cols) ∧ p.Nodup ∧
    (∀ q ∈ p, inBounds rows cols q) ∧ (∀ q ∈ p.tail, q ∉ V) ∧
    w = cur ++ pathWord g p ∧ w ∈ dict ∧ 3 ≤ w.length

/-- C10: for every string tile, `_expandTile` returns exactly the
uppercased tile — the three special-tile branches for QU, ST and IE are
no-ops, so expansion is extensionally plain uppercasing. -/
theorem expandTile_eq_pyUpper (tile : Str) : expandTile tile = pyUpper tile := by
  unfold expandTile
  dsimp only
  split_ifs with h1 h2 h3
  · exact h1.symm
  · exact h2.symm
  · exact h3.symm
  · rfl

/-! ## Unfolding equations for the fuelled search -/

theorem dfsAux_zero (pr : Bool) (g : List (List Str)) (dict prefixes : Finset Str)
    (rows cols : Int) (r c : Int) (cur : Str) (st : BoggleState) :
    dfsAux pr g dict prefixes rows cols 0 r c cur st = st := rfl

theorem dfsAux_succ (pr : Bool) (g : List (List Str)) (dict prefixes : Finset Str)
    (rows cols : Int) (fuel : Nat) (r c : Int) (cur : Str) (st : BoggleState) :
    dfsAux pr g dict prefixes rows cols (fuel + 1) r c cur st =
      (if pr ∧ cur ++ expandTile (cellAt g r c) ∉ prefixes then st
       else
         (getNeighbors r c rows cols).foldl
           (dfsStep pr g dict prefixes rows cols fuel (cur ++ expandTile (cellAt g r c)))
           (if 3 ≤ (cur ++ expandTile (cellAt g r c)).length ∧
               cur ++ expandTile (cellAt g r c) ∈ dict then
              if cur ++ expandTile (cellAt g r c) ∈ st.solution_words then st
              else { st with
                solution_words := st.solution_words ++ [cur ++ expandTile (cellAt g r c)] }
            else st)) := rfl

/-! ## Generic facts about the neighbour loop -/

theorem foldl_visited_eq {f : BoggleState → Pos → BoggleState}
    (hf : ∀ s p, (f s p).visited = s.visited) :
    ∀ (l : List Pos) (s : BoggleState), (l.foldl f s).visited = s.visited := by
  intro l
  induction l with
  | nil => intro s; rfl
  | cons x xs ih => intro s; rw [List.foldl_cons, ih, hf]

theorem foldl_preserves {α β : Type*} {P : α → Prop} {f : α → β → α}
    (hf : ∀ s x, P s → P (f s x)) :
    ∀ (l : List β) (s : α), P s → P (l.foldl f s) := by
  intro l
  induction l with
  | nil => intro s hs; exact hs
  | cons x xs ih => intro s hs; rw [List.foldl_cons]; exact ih _ (hf _ _ hs)

/-! ## The visited set is restored by every call (frame property) -/

theorem dfsAux_visited (pr : Bool) (g : List (List Str)) (dict prefixes : Finset Str)
    (rows cols : Int) :
    ∀ (fuel : Nat) (r c : Int) (cur : Str) (st : BoggleState),
      (dfsAux pr g dict prefixes rows cols fuel r c cur st).visited = st.visited := by
  intro fuel
  induction fuel with
  | zero => intro r c cur st; rfl
  | succ fuel ih =>
    intro r c cur st
    rw [dfsAux_succ]
    have hstep : ∀ s p,
        (dfsStep pr g dict prefixes rows cols fuel (cur ++ expandTile (cellAt g r c)) s p).visited
          = s.visited := by
      intro s p
      unfold dfsStep
      split_ifs with hp
      · rfl
      · show ((dfsAux pr g dict prefixes rows cols fuel p.1 p.2 _
            { s with visited := insert p s.visited }).visited).erase p = s.visited
        rw [ih]
        exact Finset.erase_insert hp
    split_ifs with h1 h2 h3
    · rfl
    · rw [foldl_visited_eq hstep]
    · rw [foldl_visited_eq hstep]
    · rw [foldl_visited_eq hstep]

theorem dfsStep_visited (pr : Bool) (g : List (List Str)) (dict prefixes : Finset Str)
    (rows cols : Int) (fuel : Nat) (w : Str) (s : BoggleState) (p : Pos) :
    (dfsStep pr g dict prefixes rows cols fuel w s p).visited = s.visited := by
  unfold dfsStep
  split_ifs with hp
  · rfl
  · show ((dfsAux pr g dict prefixes rows cols fuel p.1 p.2 _
        { s with visited := insert p s.visited }).visited).erase p = s.visited
    rw [dfsAux_visited]
    exact Finset.erase_insert hp

/-! ## The word list only ever grows (by appending at the end) -/

theorem foldl_words_append {f : BoggleState → Pos → BoggleState}
    (hf : ∀ s p, ∃ t, (f s p).solution_words = s.solution_words ++ t) :
    ∀ (l : List Pos) (s : BoggleState),
      ∃ t, (l.foldl f s).solution_words = s.solution_words ++ t := by
  intro l
  induction l with
  | nil => intro s; exact ⟨[], (List.append_nil _).symm⟩
  | cons x xs ih =>
    intro s
    obtain ⟨t1, h1⟩ := hf s x
    obtain ⟨t2, h2⟩ := ih (f s x)
    exact ⟨t1 ++ t2, by rw [List.foldl_cons, h2, h1, List.append_assoc]⟩

theorem dfsAux_words_append (pr : Bool) (g : List (List Str)) (dict prefixes : Finset Str)
    (rows cols : Int) :
    ∀ (fuel : Nat) (r c : Int) (cur : Str) (st : BoggleState),
      ∃ t, (dfsAux pr g dict prefixes rows cols fuel r c cur st).solution_words
        = st.solution_words ++ t := by
  intro fuel
  induction fuel with
  | zero => intro r c cur st; exact ⟨[], (List.append_nil _).symm⟩
  | succ fuel ih =>
    intro r c cur st
    rw [dfsAux_succ]
    have hstep : ∀ s p, ∃ t,
        (dfsStep pr g dict prefixes rows cols fuel (cur ++ expandTile (cellAt g r c)) s p).solution_words
          = s.solution_words ++ t := by
      intro s p
      unfold dfsStep
      split_ifs with hp
      · exact ⟨[], (List.append_nil _).symm⟩
      · exact ih p.1 p.2 _ _
    split_ifs with h1 h2 h3
    · exact ⟨[], (List.append_nil _).symm⟩
    · exact foldl_words_append hstep _ _
    · obtain ⟨t, ht⟩ := foldl_words_append hstep (getNeighbors r c rows cols)
        { st with solution_words := st.solution_words ++ [cur ++ expandTile (cellAt g r c)] }
      exact ⟨[cur ++ expandTile (cellAt g r c)] ++ t, by rw [ht, List.append_assoc]⟩
    · exact foldl_words_append hstep _ _

theorem dfsAux_words_mono (pr : Bool) (g : List (List Str)) (dict prefixes : Finset Str)
    (rows cols : Int) (fuel : Nat) (r c : Int) (cur : Str) (st : BoggleState) {w : Str}
    (hw : w ∈ st.solution_words) :
    w ∈ (dfsAux pr g dict prefixes rows cols fuel r c cur st).solution_words := by
  obtain ⟨t, ht⟩ := dfsAux_words_append pr g dict prefixes rows cols fuel r c cur st
  rw [ht, List.mem_append]
  exact Or.inl hw

/-! ## The word list never holds a duplicate -/

theorem dfsAux_nodup (pr : Bool) (g : List (List Str)) (dict prefixes : Finset Str)
    (rows cols : Int) :
    ∀ (fuel : Nat) (r c : Int) (cur : Str) (st : BoggleState),
      st.solution_words.Nodup →
      (dfsAux pr g dict prefixes rows cols fuel r c cur st).solution_words.Nodup := by
  intro fuel
  induction fuel with
  | zero => intro r c cur st h; exact h
  | succ fuel ih =>
    intro r c cur st hnd
    rw [dfsAux_succ]
    have hstep : ∀ (s : BoggleState) (p : Pos), s.solution_words.Nodup →
        (dfsStep pr g dict prefixes rows cols fuel (cur ++ expandTile (cellAt g r c)) s p).solution_words.Nodup := by
      intro s p hs
      unfold dfsStep
      split_ifs with hp
      · exact hs
      · exact ih p.1 p.2 _ _ hs
    split_ifs with h1 h2 h3
    · exact hnd
    · exact foldl_preserves hstep _ _ hnd
    · refine foldl_preserves hstep _ _ ?_
      rw [List.nodup_append]
      refine ⟨hnd, List.nodup_singleton _, ?_⟩
      intro a ha hb
      rw [List.mem_singleton] at hb
      exact h3 (hb ▸ ha)
    · exact foldl_preserves hstep _ _ hnd

/-! ## Facts about neighbours, grid cells and start cells -/

theorem mem_getNeighbors_inBounds {row col rows cols : Int} {p : Pos}
    (h : p ∈ getNeighbors row col rows cols) :
    inBounds rows cols p ∧ p ≠ (row, col) := by
  unfold getNeighbors at h
  simp only [List.mem_flatMap, List.mem_filterMap] at h
  obtain ⟨dr, hdr, dc, hdc, h⟩ := h
  split_ifs at h with h0 hb
  have hp : (row + dr, col + dc) = p := Option.some_inj.mp h
  subst hp
  refine ⟨⟨hb.1, hb.2.1, hb.2.2.1, hb.2.2.2⟩, ?_⟩
  intro heq
  rw [Prod.mk.injEq] at heq
  exact h0 ⟨by omega, by omega⟩

theorem mem_gridCells {rows cols : Int} {q : Pos} :
    q ∈ gridCells rows cols ↔ inBounds rows cols q := by
  unfold gridCells inBounds
  rw [Finset.mem_product, Finset.mem_Icc, Finset.mem_Icc]
  omega

theorem card_gridCells (rows cols : Nat) :
    (gridCells (rows : Int) (cols : Int)).card = rows * cols := by
  unfold gridCells
  rw [Finset.card_product, Int.card_Icc, Int.card_Icc]
  have h1 : ((rows : Int) - 1 + 1 - 0).toNat = rows := by omega
  have h2 : ((cols : Int) - 1 + 1 - 0).toNat = cols := by omega
  rw [h1, h2]

theorem mem_startCells {rows cols : Nat} {q : Pos} :
    q ∈ startCells rows cols ↔ inBounds (rows : Int) (cols : Int) q := by
  unfold startCells
  rw [List.mem_flatMap]
  constructor
  · rintro ⟨r, hr, hq⟩
    rw [List.mem_map] at hq
    obtain ⟨c, hc, rfl⟩ := hq
    rw [List.mem_range] at hr hc
    exact ⟨show (0:Int) ≤ (r:Int) by omega,
           show ((r:Int) < (rows:Int)) by omega,
           show (0:Int) ≤ (c:Int) by omega,
           show ((c:Int) < (cols:Int)) by omega⟩
  · rintro ⟨h1, h2, h3, h4⟩
    refine ⟨q.1.toNat, ?_, ?_⟩
    · rw [List.mem_range]; omega
    · rw [List.mem_map]
      refine ⟨q.2.toNat, by rw [List.mem_range]; omega, ?_⟩
      show ((q.1.toNat : Int), (q.2.toNat : Int)) = q
      rw [Int.toNat_of_nonneg h1, Int.toNat_of_nonneg h3]

theorem length_le_card_gridCells {rows cols : Int} {p : List Pos}
    (hnd : p.Nodup) (hb : ∀ q ∈ p, inBounds rows cols q) :
    p.length ≤ (gridCells rows cols).card := by
  calc p.length = p.toFinset.card := (List.toFinset_card_of_nodup hnd).symm
    _ ≤ (gridCells rows cols).card :=
        Finset.card_le_card fun q hq => mem_gridCells.mpr (hb q (List.mem_toFinset.mp hq))

/-! ## Facts about the prefix set -/

theorem mem_prefixSet {D : Finset Str} {w u t : Str}
    (hw : w ∈ D) (hu : u ≠ []) (ht : u ++ t = w) : u ∈ prefixSet D := by
  unfold prefixSet
  rw [Finset.mem_biUnion]
  refine ⟨w, hw, ?_⟩
  rw [List.mem_toFinset, List.mem_map]
  have hl : 1 ≤ u.length := by
    have := List.length_pos.mpr hu
    omega
  have hlen : u.length ≤ w.length := by
    subst ht
    rw [List.length_append]
    omega
  refine ⟨u.length - 1, by rw [List.mem_range]; omega, ?_⟩
  rw [Nat.sub_add_cancel hl]
  subst ht
  exact List.take_left u t

/-! ## Soundness of the search: every emitted word is traced by a path -/

theorem pathWord_cons (g : List (List Str)) (q : Pos) (rest : List Pos) :
    pathWord g (q :: rest) = expandTile (cellAt g q.1 q.2) ++ pathWord g rest := rfl

theorem foldl_preserves_mem {α β : Type*} {P : α → Prop} {f : α → β → α} :
    ∀ (l : List β) (s : α), (∀ s x, x ∈ l → P s → P (f s x)) → P s → P (l.foldl f s) := by
  intro l
  induction l with
  | nil => intro s _ hs; exact hs
  | cons x xs ih =>
    intro s hf hs
    rw [List.foldl_cons]
    exact ih _ (fun s y hy => hf s y (List.mem_cons_of_mem _ hy))
      (hf s x (List.mem_cons_self _ _) hs)

theorem dfsAux_sound (pr : Bool) (g : List (List Str)) (dict prefixes : Finset Str)
    (rows cols : Int) :
    ∀ (fuel : Nat) (r c : Int) (cur : Str) (st : BoggleState) (w : Str),
      (r, c) ∈ st.visited → inBounds rows cols (r, c) →
      w ∈ (dfsAux pr g dict prefixes rows cols fuel r c cur st).solution_words →
      w ∈ st.solution_words ∨ soundWitness g dict rows cols r c cur st.visited w := by
  intro fuel
  induction fuel with
  | zero => intro r c cur st w _ _ hw; exact Or.inl hw
  | succ fuel ih =>
    intro r c cur st w hv hbnd hw
    rw [dfsAux_succ] at hw
    by_cases h1 : pr ∧ cur ++ expandTile (cellAt g r c) ∉ prefixes
    · rw [if_pos h1] at hw
      exact Or.inl hw
    rw [if_neg h1] at hw
    have hstep : ∀ (s : BoggleState) (x : Pos), x ∈ getNeighbors r c rows cols →
        (s.visited = st.visited ∧ ∀ w' ∈ s.solution_words,
          w' ∈ st.solution_words ∨ soundWitness g dict rows cols r c cur st.visited w') →
        ((dfsStep pr g dict prefixes rows cols fuel
            (cur ++ expandTile (cellAt g r c)) s x).visited = st.visited ∧
          ∀ w' ∈ (dfsStep pr g dict prefixes rows cols fuel
            (cur ++ expandTile (cellAt g r c)) s x).solution_words,
            w' ∈ st.solution_words ∨ soundWitness g dict rows cols r c cur st.visited w') := by
      rintro s x hx ⟨hsv, hsw⟩
      have hx2 := mem_getNeighbors_inBounds hx
      unfold dfsStep
      split_ifs with hxv
      · exact ⟨hsv, hsw⟩
      constructor
      · show ((dfsAux pr g dict prefixes rows cols fuel x.1 x.2 _
            { s with visited := insert x s.visited }).visited).erase x = st.visited
        rw [dfsAux_visited, Finset.erase_insert hxv, hsv]
      intro w' hw'
      have hrec := ih x.1 x.2 (cur ++ expandTile (cellAt g r c))
        { s with visited := insert x s.visited } w'
        (Finset.mem_insert_self x s.visited) hx2.1 hw'
      rcases hrec with hin | ⟨p', hhead, hchain, hnd, hbd, htl, hweq, hdict, hlen⟩
      · exact hsw w' hin
      cases p' with
      | nil => simp at hhead
      | cons y ys =>
        have hy : y = x := by
          have := hhead
          rw [List.head?_cons, Option.some_inj] at this
          exact this
        refine Or.inr ⟨(r, c) :: y :: ys, rfl, ?_, ?_, ?_, ?_, ?_, hdict, hlen⟩
        · refine List.chain'_cons'.mpr ⟨?_, hchain⟩
          intro z hz
          rw [List.head?_cons, Option.mem_def, Option.some_inj] at hz
          subst hz
          subst hy
          exact hx
        · refine List.nodup_cons.mpr ⟨?_, hnd⟩
          intro hmem
          rcases List.mem_cons.mp hmem with heq | hmem2
          · exact hx2.2 (by rw [heq, hy])
          · have : (r, c) ∈ insert x s.visited :=
              Finset.mem_insert_of_mem (by rw [hsv]; exact hv)
            exact htl (r, c) hmem2 this
        · intro q hq
          rcases List.mem_cons.mp hq with heq | hmem2
          · rw [heq]; exact hbnd
          · exact hbd q hmem2
        · intro q hq
          rcases List.mem_cons.mp hq with heq | hmem2
          · rw [heq, hy, ← hsv]; exact hxv
          · intro hmem3
            exact htl q hmem2 (Finset.mem_insert_of_mem (by rw [hsv]; exact hmem3))
        · rw [hweq]
          simp [pathWord_cons, List.append_assoc]
    have hfold : ∀ st1 : BoggleState, st1.visited = st.visited →
        (∀ w' ∈ st1.solution_words,
          w' ∈ st.solution_words ∨ soundWitness g dict rows cols r c cur st.visited w') →
        ∀ w' ∈ ((getNeighbors r c rows cols).foldl
            (dfsStep pr g dict prefixes rows cols fuel
              (cur ++ expandTile (cellAt g r c))) st1).solution_words,
          w' ∈ st.solution_words ∨ soundWitness g dict rows cols r c cur st.visited w' :=
      fun st1 ha hb =>
        (foldl_preserves_mem (getNeighbors r c rows cols) st1 hstep ⟨ha, hb⟩).2
    by_cases h2 : 3 ≤ (cur ++ expandTile (cellAt g r c)).length ∧
        cur ++ expandTile (cellAt g r c) ∈ dict
    · rw [if_pos h2] at hw
      by_cases h3 : cur ++ expandTile (cellAt g r c) ∈ st.solution_words
      · rw [if_pos h3] at hw
        exact hfold st rfl (fun w' h => Or.inl h) w hw
      · rw [if_neg h3] at hw
        refine hfold
          { st with solution_words := st.solution_words ++ [cur ++ expandTile (cellAt g r c)] }
          rfl ?_ w hw
        intro w' hw'
        rcases List.mem_append.mp hw' with hin | hone
        · exact Or.inl hin
        rw [List.mem_singleton] at hone
        subst hone
        refine Or.inr ⟨[(r, c)], rfl, List.chain'_singleton _, List.nodup_singleton _,
          ?_, ?_, ?_, h2.2, h2.1⟩
        · intro q hq
          rw [List.mem_singleton] at hq
          rw [hq]
          exact hbnd
        · intro q hq
          simp at hq
        · rw [pathWord_cons]
          show cur ++ expandTile (cellAt g r c) = cur ++ (expandTile (cellAt g r c) ++ pathWord g [])
          rw [show pathWord g [] = [] from rfl, List.append_nil]
    · rw [if_neg h2] at hw
      exact hfold st rfl (fun w' h => Or.inl h) w hw

/-! ## Completeness: every word traced by a path is found -/

theorem dfsStep_words_mono (pr : Bool) (g : List (List Str)) (dict prefixes : Finset Str)
    (rows cols : Int) (fuel : Nat) (nw : Str) :
    ∀ (s : BoggleState) (p : Pos), ∀ w ∈ s.solution_words,
      w ∈ (dfsStep pr g dict prefixes rows cols fuel nw s p).solution_words := by
  intro s p w hw
  unfold dfsStep
  split_ifs with hp
  · exact hw
  · exact dfsAux_words_mono pr g dict prefixes rows cols fuel p.1 p.2 nw
      { s with visited := insert p s.visited } hw

theorem foldl_words_mono {f : BoggleState → Pos → BoggleState}
    (hf : ∀ s p, ∀ w ∈ s.solution_words, w ∈ (f s p).solution_words) :
    ∀ (l : List Pos) (s : BoggleState), ∀ w ∈ s.solution_words,
      w ∈ (l.foldl f s).solution_words := by
  intro l
  induction l with
  | nil => intro s w hw; exact hw
  | cons x xs ih =>
    intro s w hw
    rw [List.foldl_cons]
    exact ih _ w (hf s x w hw)

theorem foldl_reach {f : BoggleState → Pos → BoggleState} {w : Str} {V : Finset Pos}
    (hmono : ∀ s p, ∀ w' ∈ s.solution_words, w' ∈ (f s p).solution_words)
    (hvis : ∀ s p, (f s p).visited = s.visited) :
    ∀ (l : List Pos) (s : BoggleState) (x : Pos), x ∈ l → s.visited = V →
      (∀ s' : BoggleState, s'.visited = V → w ∈ (f s' x).solution_words) →
      w ∈ (l.foldl f s).solution_words := by
  intro l
  induction l with
  | nil => intro s x hx; exact absurd hx (List.not_mem_nil x)
  | cons y ys ih =>
    intro s x hx hsv hx2
    rw [List.foldl_cons]
    rcases List.mem_cons.mp hx with rfl | hmem
    · exact foldl_words_mono hmono ys (f s x) w (hx2 s hsv)
    · exact ih (f s y) x hmem (by rw [hvis, hsv]) hx2

theorem dfsAux_complete (pr : Bool) (g : List (List Str)) (dict prefixes : Finset Str)
    (rows cols : Int)
    (hpref : ∀ u t : Str, u ≠ [] → u ++ t ∈ dict → u ∈ prefixes) :
    ∀ (p : List Pos) (fuel : Nat) (r c : Int) (cur : Str) (st : BoggleState),
      p.head? = some (r, c) →
      p.Chain' (adjStep rows cols) → p.Nodup →
      (∀ q ∈ p.tail, q ∉ st.visited) →
      cur ++ pathWord g p ∈ dict → 3 ≤ (cur ++ pathWord g p).length →
      p.length ≤ fuel →
      (pr = true → cur ++ expandTile (cellAt g r c) ≠ []) →
      cur ++ pathWord g p ∈
        (dfsAux pr g dict prefixes rows cols fuel r c cur st).solution_words := by
  intro p
  induction p with
  | nil => intro fuel r c cur st hhead; simp at hhead
  | cons q rest ih =>
    intro fuel r c cur st hhead hchain hnd htl hdict hlen hfuel hpr
    rw [List.head?_cons, Option.some_inj] at hhead
    subst hhead
    obtain ⟨f, rfl⟩ : ∃ f, fuel = f + 1 :=
      ⟨fuel - 1, by rw [List.length_cons] at hfuel; omega⟩
    rw [dfsAux_succ]
    have hprune : ¬(pr ∧ (cur ++ expandTile (cellAt g r c)) ∉ prefixes) := by
      rintro ⟨hp1, hp2⟩
      refine hp2 (hpref _ (pathWord g rest) (hpr hp1) ?_)
      rw [List.append_assoc]
      exact hdict
    rw [if_neg hprune]
    cases rest with
    | nil =>
      have hW : cur ++ pathWord g ((r, c) :: []) = cur ++ expandTile (cellAt g r c) := by
        rw [pathWord_cons]
        rw [show pathWord g ([] : List Pos) = [] from rfl, List.append_nil]
      rw [hW] at hdict hlen ⊢
      refine foldl_words_mono (dfsStep_words_mono pr g dict prefixes rows cols f _) _ _ _ ?_
      split_ifs with h2 h3
      · exact h3
      · exact List.mem_append.mpr (Or.inr (List.mem_singleton.mpr rfl))
      · exact absurd ⟨hlen, hdict⟩ h2
    | cons x rest2 =>
      have hxadj : adjStep rows cols (r, c) x := (List.chain'_cons.mp hchain).1
      have hxnv : x ∉ st.visited := htl x (List.mem_cons_self x rest2)
      have hassoc : cur ++ pathWord g ((r, c) :: x :: rest2)
          = (cur ++ expandTile (cellAt g r c)) ++ pathWord g (x :: rest2) := by
        rw [pathWord_cons, ← List.append_assoc]
      rw [hassoc]
      refine foldl_reach (dfsStep_words_mono pr g dict prefixes rows cols f _)
        (dfsStep_visited pr g dict prefixes rows cols f _) _ _ x hxadj
        (by split_ifs <;> rfl) ?_
      intro s' hs'
      unfold dfsStep
      rw [if_neg (by rw [hs']; exact hxnv)]
      show (cur ++ expandTile (cellAt g r c)) ++ pathWord g (x :: rest2) ∈
        (dfsAux pr g dict prefixes rows cols f x.1 x.2 _
          { s' with visited := insert x s'.visited }).solution_words
      refine ih f x.1 x.2 (cur ++ expandTile (cellAt g r c))
        { s' with visited := insert x s'.visited } rfl
        (List.chain'_cons.mp hchain).2 (List.nodup_cons.mp hnd).2 ?_ ?_ ?_ ?_ ?_
      · intro z hz
        rw [Finset.mem_insert]
        rintro (rfl | hz2)
        · exact (List.nodup_cons.mp (List.nodup_cons.mp hnd).2).1 hz
        · rw [hs'] at hz2
          exact htl z (List.mem_cons_of_mem x hz) hz2
      · rw [List.append_assoc]
        exact hdict
      · rw [List.append_assoc]
        exact hlen
      · simp only [List.length_cons] at hfuel ⊢
        omega
      · intro hp1 hcontra
        exact hpr hp1 (List.append_eq_nil.mp hcontra).1

/-! ## Trimming leading empty-expansion cells from a path -/

theorem pathWord_trimPath (g : List (List Str)) :
    ∀ p : List Pos, pathWord g (trimPath g p) = pathWord g p := by
  intro p
  induction p with
  | nil => rfl
  | cons q rest ih =>
    rw [trimPath]
    split_ifs with h
    · rw [ih, pathWord_cons, h, List.nil_append]
    · rfl

theorem trimPath_sublist (g : List (List Str)) :
    ∀ p : List Pos, (trimPath g p).Sublist p := by
  intro p
  induction p with
  | nil => exact List.Sublist.refl _
  | cons q rest ih =>
    rw [trimPath]
    split_ifs with h
    · exact ih.cons q
    · exact List.Sublist.refl _

theorem trimPath_chain (g : List (List Str)) (rows cols : Int) :
    ∀ p : List Pos, p.Chain' (adjStep rows cols) →
      (trimPath g p).Chain' (adjStep rows cols) := by
  intro p
  induction p with
  | nil => intro h; exact h
  | cons q rest ih =>
    intro h
    rw [trimPath]
    split_ifs with hq
    · exact ih h.tail
    · exact h

theorem trimPath_head_ne (g : List (List Str)) :
    ∀ (p : List Pos) (q : Pos) (rest : List Pos),
      trimPath g p = q :: rest → expandTile (cellAt g q.1 q.2) ≠ [] := by
  intro p
  induction p with
  | nil => intro q rest h; exact absurd h (by rw [trimPath]; exact fun h => List.noConfusion h)
  | cons y ys ih =>
    intro q rest h
    rw [trimPath] at h
    split_ifs at h with hy
    · exact ih q rest h
    · injection h with h1 h2
      subst h1
      exact hy

/-! ## Characterisation of the solver output -/

theorem solveAux_eq (pr : Bool) (g : List (List Str)) (d : List Str) :
    solveAux pr g d =
      (startCells g.length (g.headD []).length).foldl
        (fun words rc =>
          (dfsAux pr g (upperDict d) (prefixSet (upperDict d))
            (g.length : Int) ((g.headD []).length : Int)
            (g.length * (g.headD []).length) rc.1 rc.2 []
            { solution_words := words, visited := {rc} }).solution_words)
        [] := rfl

theorem solveAux_sound (pr : Bool) (g : List (List Str)) (d : List Str) :
    ∀ w ∈ solveAux pr g d,
      w ∈ upperDict d ∧ 3 ≤ w.length ∧
        ∃ p : List Pos, isValidPath (g.length : Int) ((g.headD []).length : Int) p ∧
          pathWord g p = w := by
  rw [solveAux_eq]
  have main : ∀ (l : List Pos),
      (∀ q ∈ l, inBounds (g.length : Int) ((g.headD []).length : Int) q) →
      ∀ ws : List Str,
      (∀ w ∈ ws, w ∈ upperDict d ∧ 3 ≤ w.length ∧
        ∃ p : List Pos, isValidPath (g.length : Int) ((g.headD []).length : Int) p ∧
          pathWord g p = w) →
      ∀ w ∈ l.foldl
        (fun words rc =>
          (dfsAux pr g (upperDict d) (prefixSet (upperDict d))
            (g.length : Int) ((g.headD []).length : Int)
            (g.length * (g.headD []).length) rc.1 rc.2 []
            { solution_words := words, visited := {rc} }).solution_words) ws,
        w ∈ upperDict d ∧ 3 ≤ w.length ∧
          ∃ p : List Pos, isValidPath (g.length : Int) ((g.headD []).length : Int) p ∧
            pathWord g p = w := by
    intro l
    induction l with
    | nil => intro _ ws hws w hw; exact hws w hw
    | cons x xs ih =>
      intro hbd ws hws w hw
      rw [List.foldl_cons] at hw
      refine ih (fun q hq => hbd q (List.mem_cons_of_mem _ hq)) _ ?_ w hw
      intro w' hw'
      have hx := hbd x (List.mem_cons_self _ _)
      have hs := dfsAux_sound pr g (upperDict d) (prefixSet (upperDict d))
        (g.length : Int) ((g.headD []).length : Int)
        (g.length * (g.headD []).length) x.1 x.2 []
        { solution_words := ws, visited := {x} } w'
        (Finset.mem_singleton_self x) hx hw'
      rcases hs with hin | ⟨p, _, hchain, hnd, hbd2, _, hweq, hdict, hlen⟩
      · exact hws w' hin
      · exact ⟨hdict, hlen, ⟨p, ⟨hnd, hchain, hbd2⟩, hweq.symm⟩⟩
  refine main (startCells g.length (g.headD []).length) ?_ [] ?_
  · intro q hq
    exact mem_startCells.mp hq
  · intro w hw
    exact absurd hw (List.not_mem_nil w)

theorem foldl_strs_mono {f : List Str → Pos → List Str}
    (hmono : ∀ ws x, ∀ w' ∈ ws, w' ∈ f ws x) :
    ∀ (l : List Pos) (ws : List Str), ∀ w' ∈ ws, w' ∈ l.foldl f ws := by
  intro l
  induction l with
  | nil => intro ws w' hw; exact hw
  | cons x xs ih =>
    intro ws w' hw
    rw [List.foldl_cons]
    exact ih _ w' (hmono ws x w' hw)

theorem foldl_strs_reach {f : List Str → Pos → List Str} {w : Str}
    (hmono : ∀ ws x, ∀ w' ∈ ws, w' ∈ f ws x) :
    ∀ (l : List Pos) (ws : List Str) (x : Pos), x ∈ l →
      (∀ ws', w ∈ f ws' x) → w ∈ l.foldl f ws := by
  intro l
  induction l with
  | nil => intro ws x hx; exact absurd hx (List.not_mem_nil x)
  | cons y ys ih =>
    intro ws x hx hfx
    rw [List.foldl_cons]
    rcases List.mem_cons.mp hx with rfl | hmem
    · exact foldl_strs_mono hmono ys (f ws x) w (hfx ws)
    · exact ih (f ws y) x hmem hfx

theorem solveAux_complete (pr : Bool) (g : List (List Str)) (d : List Str) (w : Str)
    (hdict : w ∈ upperDict d) (hlen : 3 ≤ w.length)
    (hpath : ∃ p : List Pos, isValidPath (g.length : Int) ((g.headD []).length : Int) p ∧
      pathWord g p = w) :
    w ∈ solveAux pr g d := by
  obtain ⟨p0, ⟨hnd0, hchain0, hbd0⟩, hw0⟩ := hpath
  have hpw : pathWord g (trimPath g p0) = w := by rw [pathWord_trimPath]; exact hw0
  have hsub := trimPath_sublist g p0
  have hnd : (trimPath g p0).Nodup := hsub.nodup hnd0
  have hchain := trimPath_chain g _ _ p0 hchain0
  have hbd : ∀ q ∈ trimPath g p0, inBounds (g.length : Int) ((g.headD []).length : Int) q :=
    fun q hq => hbd0 q (hsub.subset hq)
  cases htrim : trimPath g p0 with
  | nil =>
    rw [htrim] at hpw
    rw [← hpw] at hlen
    rw [show pathWord g ([] : List Pos) = [] from rfl] at hlen
    exact absurd hlen (by decide)
  | cons x rest =>
    rw [htrim] at hpw hnd hchain hbd
    have hxb : inBounds (g.length : Int) ((g.headD []).length : Int) x :=
      hbd x (List.mem_cons_self _ _)
    rw [solveAux_eq]
    refine foldl_strs_reach ?_ _ [] x (mem_startCells.mpr hxb) ?_
    · intro ws rc w' hw'
      exact dfsAux_words_mono pr g (upperDict d) (prefixSet (upperDict d)) _ _ _ rc.1 rc.2 []
        { solution_words := ws, visited := {rc} } hw'
    · intro ws'
      have hcomp := dfsAux_complete pr g (upperDict d) (prefixSet (upperDict d))
        (g.length : Int) ((g.headD []).length : Int)
        (fun u t hu hut => mem_prefixSet hut hu rfl)
        (x :: rest) (g.length * (g.headD []).length) x.1 x.2 []
        { solution_words := ws', visited := {x} }
        rfl hchain hnd ?_ ?_ ?_ ?_ ?_
      · show w ∈ (dfsAux pr g (upperDict d) (prefixSet (upperDict d)) _ _ _ x.1 x.2 []
          { solution_words := ws', visited := {x} }).solution_words
        rw [← hpw]
        exact hcomp
      · intro q hq
        rw [Finset.mem_singleton]
        intro heq
        exact (List.nodup_cons.mp hnd).1 (heq ▸ hq)
      · show ([] : Str) ++ pathWord g (x :: rest) ∈ upperDict d
        rw [List.nil_append, hpw]
        exact hdict
      · show 3 ≤ (([] : Str) ++ pathWord g (x :: rest)).length
        rw [List.nil_append, hpw]
        exact hlen
      · calc (x :: rest).length
            ≤ (gridCells (g.length : Int) ((g.headD []).length : Int)).card :=
              length_le_card_gridCells hnd hbd
          _ = g.length * (g.headD []).length := card_gridCells _ _
      · intro _
        rw [List.nil_append]
        exact trimPath_head_ne g p0 x rest htrim

theorem mem_solveAux (pr : Bool) (g : List (List Str)) (d : List Str) (w : Str) :
    w ∈ solveAux pr g d ↔
      w ∈ upperDict d ∧ 3 ≤ w.length ∧
        ∃ p : List Pos, isValidPath (g.length : Int) ((g.headD []).length : Int) p ∧
          pathWord g p = w :=
  ⟨fun h => solveAux_sound pr g d w h,
   fun ⟨h1, h2, h3⟩ => solveAux_complete pr g d w h1 h2 h3⟩

/-! ## Termination: the result is fuel-independent once the fuel exceeds
the number of unvisited cells -/

theorem dfsAux_stable_add (pr : Bool) (g : List (List Str)) (dict prefixes : Finset Str)
    (rows cols : Int) :
    ∀ (fuel k : Nat) (r c : Int) (cur : Str) (st : BoggleState),
      (gridCells rows cols \ st.visited).card < fuel →
      dfsAux pr g dict prefixes rows cols (fuel + k) r c cur st
        = dfsAux pr g dict prefixes rows cols fuel r c cur st := by
  intro fuel
  induction fuel with
  | zero => intro k r c cur st h; exact absurd h (Nat.not_lt_zero _)
  | succ fuel ih =>
    intro k r c cur st h
    have hk : fuel + 1 + k = (fuel + k) + 1 := by omega
    rw [hk, dfsAux_succ, dfsAux_succ]
    by_cases h1 : pr ∧ cur ++ expandTile (cellAt g r c) ∉ prefixes
    · rw [if_pos h1, if_pos h1]
    rw [if_neg h1, if_neg h1]
    have key : ∀ (l : List Pos), (∀ x ∈ l, x ∈ getNeighbors r c rows cols) →
        ∀ s : BoggleState, s.visited = st.visited →
        l.foldl (dfsStep pr g dict prefixes rows cols (fuel + k)
            (cur ++ expandTile (cellAt g r c))) s
          = l.foldl (dfsStep pr g dict prefixes rows cols fuel
            (cur ++ expandTile (cellAt g r c))) s := by
      intro l
      induction l with
      | nil => intro _ s _; rfl
      | cons x xs ihl =>
        intro hl s hs
        rw [List.foldl_cons, List.foldl_cons]
        have hx := hl x (List.mem_cons_self _ _)
        have hstepeq : dfsStep pr g dict prefixes rows cols (fuel + k)
            (cur ++ expandTile (cellAt g r c)) s x
            = dfsStep pr g dict prefixes rows cols fuel
              (cur ++ expandTile (cellAt g r c)) s x := by
          unfold dfsStep
          split_ifs with hxv
          · rfl
          · have hxdiff : x ∈ gridCells rows cols \ s.visited :=
              Finset.mem_sdiff.mpr
                ⟨mem_gridCells.mpr (mem_getNeighbors_inBounds hx).1, hxv⟩
            have hcard : (gridCells rows cols \ insert x s.visited).card < fuel := by
              rw [Finset.sdiff_insert, Finset.card_erase_of_mem hxdiff]
              have hpos : 0 < (gridCells rows cols \ s.visited).card :=
                Finset.card_pos.mpr ⟨x, hxdiff⟩
              have hlt : (gridCells rows cols \ s.visited).card < fuel + 1 := by
                rw [hs]; exact h
              omega
            rw [ih k x.1 x.2 _ { s with visited := insert x s.visited } hcard]
        rw [hstepeq]
        exact ihl (fun y hy => hl y (List.mem_cons_of_mem _ hy)) _
          (by rw [dfsStep_visited, hs])
    exact key _ (fun x hx => hx) _ (by split_ifs <;> rfl)

/-! ## The solver never lists a word twice -/

theorem solveAux_nodup (pr : Bool) (g : List (List Str)) (d : List Str) :
    (solveAux pr g d).Nodup := by
  rw [solveAux_eq]
  refine foldl_preserves ?_ _ _ List.nodup_nil
  intro ws rc hnd
  exact dfsAux_nodup pr g (upperDict d) (prefixSet (upperDict d))
    (g.length : Int) ((g.headD []).length : Int) (g.length * (g.headD []).length)
    rc.1 rc.2 [] { solution_words := ws, visited := {rc} } hnd

/-! ## The validators, unfolded -/

theorem validateGrid_eq_true (grid : List (List PyVal)) :
    validateGrid grid = true ↔
      grid ≠ [] ∧ ∀ row ∈ grid, row.length = (grid.headD []).length ∧
        ∀ cell ∈ row, cell.isStr = true := by
  unfold validateGrid
  simp [List.all_eq_true, List.isEmpty_iff]

theorem validateDictionary_eq_true (dictionary : List PyVal) :
    validateDictionary dictionary = true ↔
      dictionary ≠ [] ∧ ∀ e ∈ dictionary, e.isStr = true := by
  unfold validateDictionary
  simp [List.all_eq_true, List.isEmpty_iff]

theorem getSolutionAux_valid (pr : Bool) (grid : List (List PyVal)) (dictionary : List PyVal)
    (hg : validateGrid grid = true) (hd : validateDictionary dictionary = true) :
    getSolutionAux pr grid dictionary = solveAux pr (gridStrs grid) (dictStrs dictionary) := by
  unfold getSolutionAux
  rw [hg, hd]
  rfl

/-! ## The claims -/

/-- C1: for every valid grid and dictionary, every word in the solution
list returned by `getSolution()` is traced by at least one sequence of
pairwise-distinct grid coordinates, consecutive ones 8-directionally
adjacent, whose expanded tiles concatenate to exactly that word. -/
theorem solution_words_have_paths (grid : List (List PyVal)) (dictionary : List PyVal)
    (hg : validateGrid grid = true) (hd : validateDictionary dictionary = true) :
    ∀ w ∈ getSolution grid dictionary,
      ∃ p : List Pos,
        isValidPath ((gridStrs grid).length : Int)
          (((gridStrs grid).headD []).length : Int) p ∧
        pathWord (gridStrs grid) p = w := by
  intro w hw
  unfold getSolution at hw
  rw [getSolutionAux_valid true grid dictionary hg hd] at hw
  exact (solveAux_sound true (gridStrs grid) (dictStrs dictionary) w hw).2.2

/-- C2: for every valid grid and dictionary, every word in the solution
list returned by `getSolution()` is a member of the uppercased dictionary
set and has at least 3 expanded letters. -/
theorem solution_words_in_dictionary (grid : List (List PyVal)) (dictionary : List PyVal)
    (hg : validateGrid grid = true) (hd : validateDictionary dictionary = true) :
    ∀ w ∈ getSolution grid dictionary,
      w ∈ upperDict (dictStrs dictionary) ∧ 3 ≤ w.length := by
  intro w hw
  unfold getSolution at hw
  rw [getSolutionAux_valid true grid dictionary hg hd] at hw
  have h := solveAux_sound true (gridStrs grid) (dictStrs dictionary) w hw
  exact ⟨h.1, h.2.1⟩

/-- C3: for every valid grid and dictionary, running the depth-first
search with the prefix-prune check removed (brute-force enumeration of
all simple paths) yields the same solution set as with the prune check
enabled. -/
theorem prune_equivalence (grid : List (List PyVal)) (dictionary : List PyVal)
    (hg : validateGrid grid = true) (hd : validateDictionary dictionary = true) :
    ∀ w : Str, w ∈ getSolutionNoPrune grid dictionary ↔ w ∈ getSolution grid dictionary := by
  intro w
  unfold getSolutionNoPrune getSolution
  rw [getSolutionAux_valid false grid dictionary hg hd,
    getSolutionAux_valid true grid dictionary hg hd]
  rw [mem_solveAux, mem_solveAux]

/-- C4: for every grid and dictionary, the solution list returned by
`getSolution()` holds pairwise-distinct words. -/
theorem solution_words_nodup (grid : List (List PyVal)) (dictionary : List PyVal) :
    (getSolution grid dictionary).Nodup := by
  unfold getSolution getSolutionAux
  split_ifs
  · exact solveAux_nodup true _ _
  · exact List.nodup_nil

/-- C5: an empty grid, a non-rectangular grid, a non-string cell, an
empty dictionary or a non-string dictionary entry each make
`getSolution()` return the empty list (the search never runs). -/
theorem invalid_inputs_empty_solution (grid : List (List PyVal)) (dictionary : List PyVal)
    (h : grid = [] ∨ (∃ row ∈ grid, row.length ≠ (grid.headD []).length) ∨
      (∃ row ∈ grid, ∃ cell ∈ row, cell.isStr = false) ∨
      dictionary = [] ∨ (∃ e ∈ dictionary, e.isStr = false)) :
    getSolution grid dictionary = [] := by
  unfold getSolution getSolutionAux
  split_ifs with hc
  · exfalso
    rw [Bool.and_eq_true] at hc
    obtain ⟨hgv, hdv⟩ := hc
    rw [validateGrid_eq_true] at hgv
    rw [validateDictionary_eq_true] at hdv
    rcases h with rfl | ⟨row, hrow, hne⟩ | ⟨row, hrow, cell, hcell, hstr⟩ | rfl | ⟨e, he, hstr⟩
    · exact hgv.1 rfl
    · exact hne (hgv.2 row hrow).1
    · rw [(hgv.2 row hrow).2 cell hcell] at hstr
      exact Bool.noConfusion hstr
    · exact hdv.1 rfl
    · rw [hdv.2 e he] at hstr
      exact Bool.noConfusion hstr
  · rfl

/-- C6: every call to the recursive depth-first search returns with the
visited set equal to the visited set at entry, on every exit path
including the early pruning return. -/
theorem dfs_restores_visited (pr : Bool) (g : List (List Str)) (dict prefixes : Finset Str)
    (rows cols : Int) (fuel : Nat) (r c : Int) (cur : Str) (st : BoggleState) :
    (dfsAux pr g dict prefixes rows cols fuel r c cur st).visited = st.visited :=
  dfsAux_visited pr g dict prefixes rows cols fuel r c cur st

/-- C7 counterexample: the grid `[[""]]` is accepted by `_validateGrid`
although its only cell is the empty string, so an accepted grid need not
have non-empty cells. -/
theorem grid_accept_nonempty_cex :
    validateGrid [[PyVal.str []]] = true ∧
      ¬(∀ row ∈ [[PyVal.str []]], ∀ cell ∈ row,
          cell.isStr = true ∧ cell.strOf ≠ []) := by
  constructor
  · decide
  · decide

/-- C7 (amended): every grid accepted by construction has all rows of
identical length and every cell a string — possibly the empty string. -/
theorem grid_accept_invariant (grid : List (List PyVal)) (h : validateGrid grid = true) :
    (∀ row ∈ grid, row.length = (grid.headD []).length) ∧
      ∀ row ∈ grid, ∀ cell ∈ row, cell.isStr = true := by
  rw [validateGrid_eq_true] at h
  exact ⟨fun row hr => (h.2 row hr).1, fun row hr => (h.2 row hr).2⟩

/-- C8 counterexample: the dictionary `[""]` passes validation, and the
stored word set then holds the empty string, which has length 0 and is
not a member of the stored prefix set. -/
theorem lexicon_prefix_closure_cex :
    validateDictionary [PyVal.str []] = true ∧
      ¬(∀ w ∈ upperDict (dictStrs [PyVal.str []]),
          1 ≤ w.length ∧ w ∈ prefixSet (upperDict (dictStrs [PyVal.str []]))) := by
  constructor
  · decide
  · decide

/-- C8 (amended): after every successful dictionary construction, every
non-empty member of the stored word set is a member of the stored prefix
set (the empty string can be stored and is the sole exception). -/
theorem lexicon_prefix_closure (dictionary : List PyVal)
    (hval : validateDictionary dictionary = true) :
    ∀ w ∈ upperDict (dictStrs dictionary), w ≠ [] →
      w ∈ prefixSet (upperDict (dictStrs dictionary)) := by
  intro w hw hne
  exact mem_prefixSet hw hne (List.append_nil w)

/-- C9: the search terminates — the fuelled depth-first search returns
the same result for every fuel exceeding the number of unvisited grid
cells, since the visited set grows strictly on every recursive call and
is bounded by the finite set of cells. -/
theorem dfs_terminates (pr : Bool) (g : List (List Str)) (dict prefixes : Finset Str)
    (rows cols : Int) (fuelA fuelB : Nat) (r c : Int) (cur : Str) (st : BoggleState)
    (hA : (gridCells rows cols \ st.visited).card < fuelA)
    (hB : (gridCells rows cols \ st.visited).card < fuelB) :
    dfsAux pr g dict prefixes rows cols fuelA r c cur st
      = dfsAux pr g dict prefixes rows cols fuelB r c cur st := by
  obtain ⟨k1, rfl⟩ : ∃ k, fuelA = ((gridCells rows cols \ st.visited).card + 1) + k :=
    ⟨fuelA - ((gridCells rows cols \ st.visited).card + 1), by omega⟩
  obtain ⟨k2, rfl⟩ : ∃ k, fuelB = ((gridCells rows cols \ st.visited).card + 1) + k :=
    ⟨fuelB - ((gridCells rows cols \ st.visited).card + 1), by omega⟩
  rw [dfsAux_stable_add pr g dict prefixes rows cols _ k1 r c cur st (by omega),
    dfsAux_stable_add pr g dict prefixes rows cols _ k2 r c cur st (by omega)]

/-! ## Concrete witnesses -/

theorem solution_words_have_paths_witness :
    validateGrid [[PyVal.str ['C'], PyVal.str ['A'], PyVal.str ['T']]] = true ∧
    validateDictionary [PyVal.str ['C', 'A', 'T']] = true ∧
    ∀ w ∈ getSolution [[PyVal.str ['C'], PyVal.str ['A'], PyVal.str ['T']]]
        [PyVal.str ['C', 'A', 'T']],
      ∃ p : List Pos,
        isValidPath
          ((gridStrs [[PyVal.str ['C'], PyVal.str ['A'], PyVal.str ['T']]]).length : Int)
          (((gridStrs [[PyVal.str ['C'], PyVal.str ['A'], PyVal.str ['T']]]).headD
            []).length : Int) p ∧
        pathWord (gridStrs [[PyVal.str ['C'], PyVal.str ['A'], PyVal.str ['T']]]) p = w :=
  ⟨by decide, by decide,
   solution_words_have_paths [[PyVal.str ['C'], PyVal.str ['A'], PyVal.str ['T']]]
     [PyVal.str ['C', 'A', 'T']] (by decide) (by decide)⟩

theorem solution_words_in_dictionary_witness :
    validateGrid [[PyVal.str ['D'], PyVal.str ['O'], PyVal.str ['G']]] = true ∧
    validateDictionary [PyVal.str ['D', 'O', 'G']] = true ∧
    ∀ w ∈ getSolution [[PyVal.str ['D'], PyVal.str ['O'], PyVal.str ['G']]]
        [PyVal.str ['D', 'O', 'G']],
      w ∈ upperDict (dictStrs [PyVal.str ['D', 'O', 'G']]) ∧ 3 ≤ w.length :=
  ⟨by decide, by decide,
   solution_words_in_dictionary [[PyVal.str ['D'], PyVal.str ['O'], PyVal.str ['G']]]
     [PyVal.str ['D', 'O', 'G']] (by decide) (by decide)⟩

theorem prune_equivalence_witness :
    validateGrid [[PyVal.str ['S'], PyVal.str ['U'], PyVal.str ['N']]] = true ∧
    validateDictionary [PyVal.str ['S', 'U', 'N']] = true ∧
    ∀ w : Str,
      w ∈ getSolutionNoPrune [[PyVal.str ['S'], PyVal.str ['U'], PyVal.str ['N']]]
        [PyVal.str ['S', 'U', 'N']] ↔
      w ∈ getSolution [[PyVal.str ['S'], PyVal.str ['U'], PyVal.str ['N']]]
        [PyVal.str ['S', 'U', 'N']] :=
  ⟨by decide, by decide,
   prune_equivalence [[PyVal.str ['S'], PyVal.str ['U'], PyVal.str ['N']]]
     [PyVal.str ['S', 'U', 'N']] (by decide) (by decide)⟩

theorem invalid_inputs_empty_solution_witness :
    (([] : List (List PyVal)) = [] ∨
      (∃ row ∈ ([] : List (List PyVal)),
        row.length ≠ (([] : List (List PyVal)).headD []).length) ∨
      (∃ row ∈ ([] : List (List PyVal)), ∃ cell ∈ row, cell.isStr = false) ∨
      [PyVal.str ['A']] = [] ∨ (∃ e ∈ [PyVal.str ['A']], e.isStr = false)) ∧
    getSolution [] [PyVal.str ['A']] = [] :=
  ⟨Or.inl rfl, invalid_inputs_empty_solution [] [PyVal.str ['A']] (Or.inl rfl)⟩

theorem grid_accept_invariant_witness :
    validateGrid [[PyVal.str ['A']]] = true ∧
    ((∀ row ∈ [[PyVal.str ['A']]], row.length = ([[PyVal.str ['A']]].headD []).length) ∧
      ∀ row ∈ [[PyVal.str ['A']]], ∀ cell ∈ row, cell.isStr = true) :=
  ⟨by decide, grid_accept_invariant [[PyVal.str ['A']]] (by decide)⟩

theorem lexicon_prefix_closure_witness :
    validateDictionary [PyVal.str ['C', 'A', 'T']] = true ∧
    ∀ w ∈ upperDict (dictStrs [PyVal.str ['C', 'A', 'T']]), w ≠ [] →
      w ∈ prefixSet (upperDict (dictStrs [PyVal.str ['C', 'A', 'T']])) :=
  ⟨by decide, lexicon_prefix_closure [PyVal.str ['C', 'A', 'T']] (by decide)⟩

theorem dfs_terminates_witness :
    ((gridCells 1 1 \ (∅ : Finset Pos)).card < 2) ∧
    ((gridCells 1 1 \ (∅ : Finset Pos)).card < 3) ∧
    dfsAux true [[['A']]] ∅ ∅ 1 1 2 0 0 [] { solution_words := [], visited := ∅ }
      = dfsAux true [[['A']]] ∅ ∅ 1 1 3 0 0 [] { solution_words := [], visited := ∅ } :=
  ⟨by decide, by decide,
   dfs_terminates true [[['A']]] ∅ ∅ 1 1 2 3 0 0 []
     { solution_words := [], visited := ∅ } (by decide) (by decide)⟩
